import Mathlib

/-!
# Pivot calibration (Algebraic Two Step): shallow embedding and verification

Embedding of `pivot_calibration.py` (class `PivotCalibrator`) over exact
rational arithmetic.  A rigid pose (`m3d.Transform`) is a rotation matrix
together with a translation vector; applying a pose to a vector is
rotate-then-translate.  The external dense-linear-algebra provider's
Moore–Penrose pseudoinverse (`np.linalg.pinv`) is modelled as a function
parameter `pinv`; theorems that need its defining property assume it as a
hypothesis.  The calibrator instance (which caches `self.ft` / `self.bt`)
is modelled by explicit state passing, and the failure of `np.vstack` on an
empty block list (the only failure point of `__call__`, reached exactly when
fewer than two poses were supplied) is modelled by an `Option` result.
-/

namespace PivotCalibration

/-- A 3-vector over ℚ. -/
abbrev Vec3 := Fin 3 → ℚ

/-- A rigid pose: rotation matrix (`orient`) and translation (`pos`),
mirroring the `m3d.Transform` fields used by the source. -/
structure Transform where
  orient : Matrix (Fin 3) (Fin 3) ℚ
  pos : Vec3

/-- `bf * v` in `m3d`: rotate `v` by `bf.orient`, then translate by `bf.pos`. -/
def Transform.apply (bf : Transform) (v : Vec3) : Vec3 :=
  bf.orient.mulVec v + bf.pos

/-- `itertools.combinations(l, 2)`: all pairs of elements of `l` taken in
order, i.e. `(l[i], l[j])` for `i < j`, enumerated lexicographically. -/
def combinations2 : List α → List (α × α)
  | [] => []
  | x :: xs => (xs.map fun y => (x, y)) ++ combinations2 xs

/-- All index pairs `(i, j)` with `i < j < n`, in lexicographic order. -/
def indexPairs (n : ℕ) : List (ℕ × ℕ) :=
  (List.range n).flatMap fun i => ((List.range n).drop (i + 1)).map fun j => (i, j)

/-- Which stacked block a row of the stacked system belongs to. -/
def blockRow (L : ℕ) (k : Fin (3 * L)) : Fin L :=
  ⟨k.val / 3, by have := k.isLt; omega⟩

/-- Row within a 3-row block. -/
def blockComp (L : ℕ) (k : Fin (3 * L)) : Fin 3 :=
  ⟨k.val % 3, by omega⟩

/-- `A = np.vstack([bfi.orient.array - bfj.orient.array for (bfi, bfj) in combs])`. -/
def buildA (combs : List (Transform × Transform)) :
    Matrix (Fin (3 * combs.length)) (Fin 3) ℚ :=
  Matrix.of fun k c =>
    let pr := combs.get (blockRow combs.length k)
    (pr.1.orient - pr.2.orient) (blockComp combs.length k) c

/-- `b = np.vstack([(bfj.pos.array - bfi.pos.array).reshape((3,1)) for (bfi, bfj) in combs])`. -/
def buildB (combs : List (Transform × Transform)) : Fin (3 * combs.length) → ℚ :=
  fun k =>
    let pr := combs.get (blockRow combs.length k)
    pr.2.pos (blockComp combs.length k) - pr.1.pos (blockComp combs.length k)

/-- Modelled from the spec (order-sensitivity check): the naive
`(ti - tj)` right-hand-side convention, i.e. `b` with the subtraction
indices NOT swapped relative to `A`.  This is the comparison variant the
spec's regression test requires to fail; it is not the source's convention. -/
def buildBNaive (combs : List (Transform × Transform)) : Fin (3 * combs.length) → ℚ :=
  fun k =>
    let pr := combs.get (blockRow combs.length k)
    pr.1.pos (blockComp combs.length k) - pr.2.pos (blockComp combs.length k)

/-- `np.average(vs, axis=0)`: componentwise arithmetic mean of a list of vectors. -/
def average (vs : List Vec3) : Vec3 :=
  fun c => (vs.map fun v => v c).sum / (vs.length : ℚ)

/-- The external linear-algebra provider's pseudoinverse
(`np.linalg.pinv`), for systems with 3 unknowns. -/
def PinvFun : Type :=
  ∀ m : ℕ, Matrix (Fin m) (Fin 3) ℚ → Matrix (Fin 3) (Fin m) ℚ

/-- Instance state of a `PivotCalibrator`: the stored pose list `self._bfs`,
the eagerly computed pair list `self._combs`, and the cached results
`self.ft` / `self.bt` (absent until `__call__` has succeeded). -/
structure PivotCalibrator where
  bfs : List Transform
  combs : List (Transform × Transform)
  ft : Option Vec3
  bt : Option Vec3

/-- `PivotCalibrator.__init__`: store the poses and eagerly enumerate
`list(combinations(self._bfs, 2))`; no validation is performed. -/
def PivotCalibrator.init (base_flange_s : List Transform) : PivotCalibrator :=
  { bfs := base_flange_s
    combs := combinations2 base_flange_s
    ft := none
    bt := none }

/-- `PivotCalibrator.__call__`.  Returns the state after the call and the
returned value; `none` models the `np.vstack` exception on an empty block
list (which is raised before any assignment to `self.ft` / `self.bt`). -/
def PivotCalibrator.call (pinv : PinvFun) (pc : PivotCalibrator) :
    PivotCalibrator × Option (Vec3 × Vec3) :=
  if pc.combs.length = 0 then (pc, none)
  else
    let A := buildA pc.combs
    let b := buildB pc.combs
    let ftv := (pinv (3 * pc.combs.length) A).mulVec b
    let pc1 := { pc with ft := some ftv }
    let btv := average (pc1.bfs.map fun bfi => bfi.apply ftv)
    let pc2 := { pc1 with bt := some btv }
    (pc2, some (ftv, btv))

/-- The least-squares solve of step 3 of the spec: `x = pinv(A) · b`. -/
def ftSpec (pinv : PinvFun) (bfs : List Transform) : Vec3 :=
  (pinv (3 * (combinations2 bfs).length) (buildA (combinations2 bfs))).mulVec
    (buildB (combinations2 bfs))

/-- The averaging of step 4 of the spec: the arithmetic mean over every
pose `i` of the original input of the point `Ri · Ft + ti`. -/
def btSpec (bfs : List Transform) (ft : Vec3) : Vec3 :=
  fun c => ((bfs.map fun bf => bf.orient.mulVec ft c + bf.pos c).sum) / (bfs.length : ℚ)

/-! ## Concrete data used to instantiate hypotheses -/

/-- A trivial instantiation of the external pseudoinverse provider, used
where a theorem holds for every provider. -/
def pinvZero : PinvFun := fun _ _ => 0

/-- Rotation by 90 degrees about the z axis (an exact rational rotation matrix). -/
def rotZ90 : Matrix (Fin 3) (Fin 3) ℚ :=
  Matrix.of ![![0, -1, 0], ![1, 0, 0], ![0, 0, 1]]

/-- Rotation by 90 degrees about the x axis. -/
def rotX90 : Matrix (Fin 3) (Fin 3) ℚ :=
  Matrix.of ![![1, 0, 0], ![0, 0, -1], ![0, 1, 0]]

/-- Ground-truth tip offset of the spec's concrete scenario: (0.1, 0.05, 0.15). -/
def ftTrue : Vec3 := ![1/10, 1/20, 3/20]

/-- Ground-truth pivot of the spec's concrete scenario: (0.5, 0.6, 0.7). -/
def btTrue : Vec3 := ![1/2, 3/5, 7/10]

/-- A noiseless pose with rotation `R`: the translation is `Bt − R · Ft`. -/
def exactPose (R : Matrix (Fin 3) (Fin 3) ℚ) : Transform :=
  ⟨R, btTrue - R.mulVec ftTrue⟩

/-- Three noiseless poses whose rotation axes are not all parallel. -/
def posesW : List Transform := [exactPose 1, exactPose rotZ90, exactPose rotX90]

/-- An explicit left inverse of the 9×3 system matrix assembled from `posesW`. -/
def leftInv : Matrix (Fin 3) (Fin 9) ℚ :=
  Matrix.of ![![1/2, -1/2, 0, 0, 0, 0, 0, 0, 0],
    ![1/2, 1/2, 0, 0, 0, 0, 0, 0, 0],
    ![0, 0, 0, 0, 1/2, 1/2, 0, 0, 0]]

/-- A concrete pseudoinverse provider that behaves as the Moore–Penrose
pseudoinverse must on the full-column-rank system assembled from `posesW`
(it is a left inverse of that matrix). -/
def pinvW : PinvFun := fun _ _ =>
  Matrix.of fun r k => if h : k.val < 9 then leftInv r ⟨k.val, h⟩ else 0

/-! ## Helper lemmas -/

theorem combinations2_length (l : List α) :
    (combinations2 l).length = l.length.choose 2 := by
  induction l with
  | nil => rfl
  | cons x xs ih =>
    simp only [combinations2, List.length_append, List.length_map, ih, List.length_cons]
    rw [Nat.choose_succ_succ xs.length 1, Nat.choose_one_right]

theorem combinations2_length_eq_zero_iff (l : List α) :
    (combinations2 l).length = 0 ↔ l.length < 2 := by
  rw [combinations2_length, Nat.choose_eq_zero_iff]

theorem mem_combinations2 {l : List α} {p : α × α} (hp : p ∈ combinations2 l) :
    p.1 ∈ l ∧ p.2 ∈ l := by
  induction l with
  | nil => simp [combinations2] at hp
  | cons x xs ih =>
    simp only [combinations2, List.mem_append, List.mem_map] at hp
    rcases hp with ⟨y, hy, rfl⟩ | hp
    · exact ⟨List.mem_cons_self x xs, List.mem_cons_of_mem x hy⟩
    · exact ⟨List.mem_cons_of_mem x (ih hp).1, List.mem_cons_of_mem x (ih hp).2⟩

theorem map_getD_range (l : List α) (d : α) :
    (List.range l.length).map (fun j => l.getD j d) = l := by
  induction l with
  | nil => rfl
  | cons x xs ih =>
    rw [List.length_cons, List.range_succ_eq_map, List.map_cons, List.map_map]
    have hc : ((fun j => (x :: xs).getD j d) ∘ Nat.succ) = fun j => xs.getD j d := by
      funext j
      simp
    rw [List.getD_cons_zero, hc, ih]

theorem indexPairs_succ (n : ℕ) :
    indexPairs (n + 1) =
      ((List.range n).map fun j => (0, j + 1)) ++
        (indexPairs n).map fun p => (p.1 + 1, p.2 + 1) := by
  unfold indexPairs
  rw [List.range_succ_eq_map, List.flatMap_cons, List.flatMap_map, List.map_flatMap]
  congr 1
  · rw [List.drop_succ_cons, List.drop_zero, List.map_map]
    rfl
  · congr 1
    funext i
    simp only [Function.comp, Nat.succ_eq_add_one, List.drop_succ_cons, ← List.map_drop,
      List.map_map]
    rfl

theorem combinations2_eq_indexPairs (l : List α) (d : α) :
    combinations2 l =
      (indexPairs l.length).map fun p => (l.getD p.1 d, l.getD p.2 d) := by
  induction l with
  | nil => rfl
  | cons x xs ih =>
    rw [combinations2, List.length_cons, indexPairs_succ, List.map_append, List.map_map,
      List.map_map]
    congr 1
    have h := congrArg (List.map fun y => (x, y)) (map_getD_range xs d)
    rw [List.map_map] at h
    rw [← h]
    rfl

theorem drop_range' (m : ℕ) : ∀ (s n : ℕ), (List.range' s n).drop m = List.range' (s + m) (n - m) := by
  induction m with
  | zero => simp
  | succ m ih =>
    intro s n
    match n with
    | 0 => simp
    | n + 1 =>
      rw [List.range'_succ, List.drop_succ_cons, ih]
      congr 1 <;> omega

theorem mem_indexPairs {n : ℕ} {p : ℕ × ℕ} (hp : p ∈ indexPairs n) :
    p.1 < p.2 ∧ p.2 < n := by
  unfold indexPairs at hp
  rw [List.mem_flatMap] at hp
  obtain ⟨i, hi, hmem⟩ := hp
  rw [List.mem_map] at hmem
  obtain ⟨j, hj, rfl⟩ := hmem
  rw [List.range_eq_range', drop_range', List.mem_range'] at hj
  obtain ⟨idx, hidx, rfl⟩ := hj
  exact ⟨by omega, by omega⟩

theorem buildA_apply (combs : List (Transform × Transform)) (k r : ℕ)
    (hk : k < combs.length) (hr : r < 3) (c : Fin 3)
    (hkr : 3 * k + r < 3 * combs.length) :
    buildA combs ⟨3 * k + r, hkr⟩ c =
      (combs.get ⟨k, hk⟩).1.orient ⟨r, hr⟩ c - (combs.get ⟨k, hk⟩).2.orient ⟨r, hr⟩ c := by
  have h1 : (3 * k + r) / 3 = k := by omega
  have h2 : (3 * k + r) % 3 = r := by omega
  simp only [buildA, Matrix.of_apply, blockRow, blockComp, h1, h2, Matrix.sub_apply]

theorem buildB_apply (combs : List (Transform × Transform)) (k r : ℕ)
    (hk : k < combs.length) (hr : r < 3)
    (hkr : 3 * k + r < 3 * combs.length) :
    buildB combs ⟨3 * k + r, hkr⟩ =
      (combs.get ⟨k, hk⟩).2.pos ⟨r, hr⟩ - (combs.get ⟨k, hk⟩).1.pos ⟨r, hr⟩ := by
  have h1 : (3 * k + r) / 3 = k := by omega
  have h2 : (3 * k + r) % 3 = r := by omega
  simp only [buildB, blockRow, blockComp, h1, h2]

/-- On exact (noiseless) inputs with `t = Bt − R · Ft`, the stacked
right-hand side equals `A` applied to the ground-truth offset. -/
theorem buildB_eq_mulVec (bfs : List Transform) (Ft Bt : Vec3)
    (hex : ∀ bf ∈ bfs, bf.pos = Bt - bf.orient.mulVec Ft) :
    buildB (combinations2 bfs) = (buildA (combinations2 bfs)).mulVec Ft := by
  funext k
  have hmem : (combinations2 bfs).get (blockRow (combinations2 bfs).length k) ∈
      combinations2 bfs := List.get_mem _ _ _
  have hp := mem_combinations2 hmem
  have e1 := hex _ hp.1
  have e2 := hex _ hp.2
  simp only [buildB, buildA, Matrix.mulVec, Matrix.of_apply, Matrix.dotProduct,
    Matrix.sub_apply, sub_mul, e1, e2, Pi.sub_apply, Finset.sum_sub_distrib]
  ring

/-- Componentwise mean of a list all of whose members equal `v`. -/
theorem average_of_const (vs : List Vec3) (v : Vec3) (h0 : vs.length ≠ 0)
    (h : ∀ u ∈ vs, u = v) : average vs = v := by
  funext c
  have hrep : vs.map (fun u => u c) = List.replicate vs.length (v c) := by
    have := List.eq_replicate_of_mem (a := v c) (l := vs.map fun u => u c) ?_
    · rwa [List.length_map] at this
    · intro b hb
      obtain ⟨u, hu, rfl⟩ := List.mem_map.1 hb
      rw [h u hu]
  rw [average, hrep, List.sum_replicate, nsmul_eq_mul]
  rw [mul_div_cancel_left₀]
  exact Nat.cast_ne_zero.2 h0

theorem average_map_apply (bfs : List Transform) (ft : Vec3) :
    average (bfs.map fun bfi => bfi.apply ft) = btSpec bfs ft := by
  funext c
  simp only [average, btSpec, List.map_map, List.length_map]
  rfl

theorem call_fst_bfs (pinv : PinvFun) (pc : PivotCalibrator) :
    (pc.call pinv).1.bfs = pc.bfs := by
  by_cases h : pc.combs.length = 0 <;> simp [PivotCalibrator.call, h]

theorem call_fst_combs (pinv : PinvFun) (pc : PivotCalibrator) :
    (pc.call pinv).1.combs = pc.combs := by
  by_cases h : pc.combs.length = 0 <;> simp [PivotCalibrator.call, h]

/-- The returned value of `__call__` depends only on the stored poses and
pair list, not on the cached `ft` / `bt` fields. -/
theorem call_snd_congr (pinv : PinvFun) (s t : PivotCalibrator)
    (hb : s.bfs = t.bfs) (hc : s.combs = t.combs) :
    (s.call pinv).2 = (t.call pinv).2 := by
  obtain ⟨sb, sc, sf, st⟩ := s
  obtain ⟨tb, tc, tf, tt⟩ := t
  cases hb
  cases hc
  by_cases h : sc.length = 0 <;> simp [PivotCalibrator.call, h]

/-- On exact inputs, solving with any left inverse of `A` recovers the
ground-truth offset. -/
theorem solve_exact (pinv : PinvFun) (bfs : List Transform) (Ft Bt : Vec3)
    (hex : ∀ bf ∈ bfs, bf.pos = Bt - bf.orient.mulVec Ft)
    (hP : pinv (3 * (combinations2 bfs).length) (buildA (combinations2 bfs)) *
      buildA (combinations2 bfs) = 1) :
    (pinv (3 * (combinations2 bfs).length) (buildA (combinations2 bfs))).mulVec
      (buildB (combinations2 bfs)) = Ft := by
  rw [buildB_eq_mulVec bfs Ft Bt hex, Matrix.mulVec_mulVec, hP, Matrix.one_mulVec]

theorem buildBNaive_eq_neg (combs : List (Transform × Transform)) :
    buildBNaive combs = -buildB combs := by
  funext k
  simp only [buildBNaive, buildB, Pi.neg_apply]
  ring

theorem average_exact (bfs : List Transform) (Ft Bt : Vec3) (h0 : bfs.length ≠ 0)
    (hex : ∀ bf ∈ bfs, bf.pos = Bt - bf.orient.mulVec Ft) :
    average (bfs.map fun bfi => bfi.apply Ft) = Bt := by
  apply average_of_const
  · rw [List.length_map]
    exact h0
  · intro u hu
    obtain ⟨bf, hbf, rfl⟩ := List.mem_map.1 hu
    rw [Transform.apply, hex bf hbf]
    funext c
    simp only [Pi.add_apply, Pi.sub_apply]
    ring

/-- With at least one pair, `__call__` returns the spec-side solve and
average, built from the stored pair list. -/
theorem call_snd_eq (pinv : PinvFun) (bfs : List Transform)
    (hne : ¬(combinations2 bfs).length = 0) :
    ((PivotCalibrator.init bfs).call pinv).2 =
      some (ftSpec pinv bfs, btSpec bfs (ftSpec pinv bfs)) := by
  simp only [PivotCalibrator.call, PivotCalibrator.init, if_neg hne]
  rw [average_map_apply]
  rfl

theorem posesW_exact : ∀ bf ∈ posesW, bf.pos = btTrue - bf.orient.mulVec ftTrue := by
  simp [posesW, exactPose]

theorem pinvW_leftInv :
    pinvW (3 * (combinations2 posesW).length) (buildA (combinations2 posesW)) *
      buildA (combinations2 posesW) = 1 := by
  ext i j
  rw [Matrix.mul_apply]
  fin_cases i <;> fin_cases j <;>
    simp [Fin.sum_univ_succ, pinvW, leftInv, buildA, blockRow, blockComp, posesW,
      exactPose, rotZ90, rotX90, combinations2, Matrix.one_apply, Matrix.vecHead,
      Matrix.vecTail]
  all_goals norm_num

theorem ftTrue_ne_zero : ftTrue ≠ 0 := by
  intro h
  have h0 := congrFun h 0
  norm_num [ftTrue] at h0

/-! ## Claim theorems -/

/-- C1: for every input of at least two poses, `__call__` returns the pair
`(Ft, Bt)` with `Ft = pinv(A) · b` (the stacked system solved through the
provider's pseudoinverse) and `Bt` the arithmetic mean over every pose `i`
of the original input, in its original order, of the point `Ri · Ft + ti`. -/
theorem calibrate_result_structure (pinv : PinvFun) (bfs : List Transform)
    (h2 : 2 ≤ bfs.length) :
    ((PivotCalibrator.init bfs).call pinv).2 =
      some (ftSpec pinv bfs, btSpec bfs (ftSpec pinv bfs)) :=
  call_snd_eq pinv bfs fun h0 =>
    absurd ((combinations2_length_eq_zero_iff bfs).1 h0) (by omega)

theorem calibrate_result_structure_witness :
    2 ≤ posesW.length ∧
      ((PivotCalibrator.init posesW).call pinvZero).2 =
        some (ftSpec pinvZero posesW, btSpec posesW (ftSpec pinvZero posesW)) :=
  ⟨by decide, calibrate_result_structure pinvZero posesW (by decide)⟩

/-- C2: for each enumerated pair, the 3×3 block of `A` is `Ri − Rj` while
the 3×1 block of `b` is `tj − ti` (indices swapped relative to `A`), and
the two stacks enumerate the pairs in the same order (both are indexed by
the same block position `k` in the same pair list). -/
theorem stacked_block_convention (bfs : List Transform) (k r : ℕ)
    (hk : k < (combinations2 bfs).length) (hr : r < 3) (c : Fin 3) :
    buildA (combinations2 bfs) ⟨3 * k + r, by omega⟩ c =
        ((combinations2 bfs).get ⟨k, hk⟩).1.orient ⟨r, hr⟩ c -
          ((combinations2 bfs).get ⟨k, hk⟩).2.orient ⟨r, hr⟩ c ∧
      buildB (combinations2 bfs) ⟨3 * k + r, by omega⟩ =
        ((combinations2 bfs).get ⟨k, hk⟩).2.pos ⟨r, hr⟩ -
          ((combinations2 bfs).get ⟨k, hk⟩).1.pos ⟨r, hr⟩ :=
  ⟨buildA_apply (combinations2 bfs) k r hk hr c (by omega),
    buildB_apply (combinations2 bfs) k r hk hr (by omega)⟩

theorem stacked_block_convention_witness :
    0 < (combinations2 posesW).length ∧
      (buildA (combinations2 posesW) ⟨3 * 0 + 0, by decide⟩ 0 =
          ((combinations2 posesW).get ⟨0, by decide⟩).1.orient ⟨0, by decide⟩ 0 -
            ((combinations2 posesW).get ⟨0, by decide⟩).2.orient ⟨0, by decide⟩ 0 ∧
        buildB (combinations2 posesW) ⟨3 * 0 + 0, by decide⟩ =
          ((combinations2 posesW).get ⟨0, by decide⟩).2.pos ⟨0, by decide⟩ -
            ((combinations2 posesW).get ⟨0, by decide⟩).1.pos ⟨0, by decide⟩) :=
  ⟨by decide, stacked_block_convention posesW 0 0 (by decide) (by decide) 0⟩

/-- C3: the call produces no result exactly when fewer than two poses were
supplied (the empty stacked system makes `np.vstack` fail before anything
is computed), and with at least two poses it always returns a result —
with no rank or orientation-diversity check, whatever the provider returns
on a rank-deficient `A` is passed through silently. -/
theorem insufficient_data_iff (pinv : PinvFun) (bfs : List Transform) :
    (((PivotCalibrator.init bfs).call pinv).2 = none ↔ bfs.length < 2) ∧
      (2 ≤ bfs.length → ∃ r, ((PivotCalibrator.init bfs).call pinv).2 = some r) := by
  by_cases h : (combinations2 bfs).length = 0
  · have hn : bfs.length < 2 := (combinations2_length_eq_zero_iff bfs).1 h
    refine ⟨⟨fun _ => hn, fun _ => ?_⟩, fun h2 => absurd hn (by omega)⟩
    simp [PivotCalibrator.call, PivotCalibrator.init, h]
  · have hn : ¬bfs.length < 2 := fun hlt =>
      h ((combinations2_length_eq_zero_iff bfs).2 hlt)
    refine ⟨⟨fun hnone => ?_, fun hlt => absurd hlt hn⟩, fun _ => ?_⟩
    · rw [call_snd_eq pinv bfs h] at hnone
      exact Option.noConfusion hnone
    · exact ⟨_, call_snd_eq pinv bfs h⟩

theorem insufficient_data_iff_witness :
    (((PivotCalibrator.init ([] : List Transform)).call pinvZero).2 = none ∧
        ([] : List Transform).length < 2) ∧
      (2 ≤ posesW.length ∧
        ∃ r, ((PivotCalibrator.init posesW).call pinvZero).2 = some r) :=
  ⟨⟨(insufficient_data_iff pinvZero []).1.2 (by decide), by decide⟩,
    ⟨by decide, (insufficient_data_iff pinvZero posesW).2 (by decide)⟩⟩

/-- C4: on noiseless poses built as `t = Bt − R · Ft` from fixed
ground-truth vectors, with at least three poses and enough orientation
diversity that the pseudoinverse is a left inverse of the stacked `A`
(the Moore–Penrose pseudoinverse is a left inverse exactly when `A` has
full column rank, which the spec equates with having two non-parallel
rotation axes), the call recovers exactly `(Ft, Bt)`. -/
theorem exact_recovery (pinv : PinvFun) (bfs : List Transform) (Ft Bt : Vec3)
    (h3 : 3 ≤ bfs.length)
    (hex : ∀ bf ∈ bfs, bf.pos = Bt - bf.orient.mulVec Ft)
    (hP : pinv (3 * (combinations2 bfs).length) (buildA (combinations2 bfs)) *
      buildA (combinations2 bfs) = 1) :
    ((PivotCalibrator.init bfs).call pinv).2 = some (Ft, Bt) := by
  have hne : ¬(combinations2 bfs).length = 0 := fun h0 =>
    absurd ((combinations2_length_eq_zero_iff bfs).1 h0) (by omega)
  have hft := solve_exact pinv bfs Ft Bt hex hP
  have hbt := average_exact bfs Ft Bt (by omega) hex
  simp only [PivotCalibrator.call, PivotCalibrator.init, if_neg hne]
  rw [hft, hbt]

theorem exact_recovery_witness :
    (3 ≤ posesW.length ∧
        (∀ bf ∈ posesW, bf.pos = btTrue - bf.orient.mulVec ftTrue) ∧
        pinvW (3 * (combinations2 posesW).length) (buildA (combinations2 posesW)) *
            buildA (combinations2 posesW) = 1) ∧
      ((PivotCalibrator.init posesW).call pinvW).2 = some (ftTrue, btTrue) :=
  ⟨⟨by decide, posesW_exact, pinvW_leftInv⟩,
    exact_recovery pinvW posesW ftTrue btTrue (by decide) posesW_exact pinvW_leftInv⟩

/-- C5: the enumerated pairs are exactly the `C(n,2)` index pairs
`(i, j)` with `i < j`, in lexicographic order over the input order, so the
stacked `A` has `3·C(n,2)` rows (its column index type is `Fin 3`) and `b`
has `3·C(n,2)` rows. -/
theorem pair_enumeration (bfs : List Transform) (d : Transform) :
    combinations2 bfs =
        (indexPairs bfs.length).map (fun p => (bfs.getD p.1 d, bfs.getD p.2 d)) ∧
      (∀ p ∈ indexPairs bfs.length, p.1 < p.2 ∧ p.2 < bfs.length) ∧
      (combinations2 bfs).length = bfs.length.choose 2 ∧
      3 * (combinations2 bfs).length = 3 * bfs.length.choose 2 :=
  ⟨combinations2_eq_indexPairs bfs d, fun _ hp => mem_indexPairs hp,
    combinations2_length bfs, by rw [combinations2_length]⟩

theorem pair_enumeration_witness :
    combinations2 posesW =
        (indexPairs posesW.length).map
          (fun p => (posesW.getD p.1 (exactPose 1), posesW.getD p.2 (exactPose 1))) ∧
      (∀ p ∈ indexPairs posesW.length, p.1 < p.2 ∧ p.2 < posesW.length) ∧
      (combinations2 posesW).length = posesW.length.choose 2 ∧
      3 * (combinations2 posesW).length = 3 * posesW.length.choose 2 :=
  pair_enumeration posesW (exactPose 1)

/-- C6: on the same exact inputs as the recovery theorem, with a nonzero
ground-truth offset, the naive right-hand-side convention `(ti − tj)`
solves to `−Ft` — the sign-flipped, hence wrong, offset — while the
source's `(tj − ti)` convention solves to `Ft`; the two conventions
disagree on every such input. -/
theorem order_sensitivity (pinv : PinvFun) (bfs : List Transform) (Ft Bt : Vec3)
    (h3 : 3 ≤ bfs.length)
    (hex : ∀ bf ∈ bfs, bf.pos = Bt - bf.orient.mulVec Ft)
    (hP : pinv (3 * (combinations2 bfs).length) (buildA (combinations2 bfs)) *
      buildA (combinations2 bfs) = 1)
    (hFt : Ft ≠ 0) :
    (pinv (3 * (combinations2 bfs).length) (buildA (combinations2 bfs))).mulVec
        (buildBNaive (combinations2 bfs)) = -Ft ∧
      (pinv (3 * (combinations2 bfs).length) (buildA (combinations2 bfs))).mulVec
        (buildB (combinations2 bfs)) = Ft ∧
      (pinv (3 * (combinations2 bfs).length) (buildA (combinations2 bfs))).mulVec
          (buildBNaive (combinations2 bfs)) ≠
        (pinv (3 * (combinations2 bfs).length) (buildA (combinations2 bfs))).mulVec
          (buildB (combinations2 bfs)) := by
  have hsolve := solve_exact pinv bfs Ft Bt hex hP
  have hnaive : (pinv (3 * (combinations2 bfs).length)
      (buildA (combinations2 bfs))).mulVec (buildBNaive (combinations2 bfs)) = -Ft := by
    rw [buildBNaive_eq_neg, Matrix.mulVec_neg, hsolve]
  refine ⟨hnaive, hsolve, ?_⟩
  rw [hnaive, hsolve]
  intro h
  apply hFt
  funext c
  have hc := congrFun h c
  simp only [Pi.neg_apply] at hc
  simp only [Pi.zero_apply]
  linarith

theorem order_sensitivity_witness :
    (3 ≤ posesW.length ∧
        (∀ bf ∈ posesW, bf.pos = btTrue - bf.orient.mulVec ftTrue) ∧
        ftTrue ≠ 0) ∧
      ((pinvW (3 * (combinations2 posesW).length) (buildA (combinations2 posesW))).mulVec
            (buildBNaive (combinations2 posesW)) = -ftTrue ∧
        (pinvW (3 * (combinations2 posesW).length) (buildA (combinations2 posesW))).mulVec
            (buildB (combinations2 posesW)) = ftTrue ∧
        (pinvW (3 * (combinations2 posesW).length) (buildA (combinations2 posesW))).mulVec
              (buildBNaive (combinations2 posesW)) ≠
          (pinvW (3 * (combinations2 posesW).length) (buildA (combinations2 posesW))).mulVec
            (buildB (combinations2 posesW))) :=
  ⟨⟨by decide, posesW_exact, ftTrue_ne_zero⟩,
    order_sensitivity pinvW posesW ftTrue btTrue (by decide) posesW_exact pinvW_leftInv
      ftTrue_ne_zero⟩

/-- C7: the call is atomic: either it fails, returning no value and
leaving the instance state (including the cached `ft` / `bt`) exactly as
it was, or it returns both vectors and caches exactly those two vectors;
no execution fails after producing a partial result. -/
theorem call_atomic (pinv : PinvFun) (pc : PivotCalibrator) :
    ((pc.call pinv).1 = pc ∧ (pc.call pinv).2 = none) ∨
      ∃ f b, (pc.call pinv).2 = some (f, b) ∧ (pc.call pinv).1.ft = some f ∧
        (pc.call pinv).1.bt = some b := by
  by_cases h : pc.combs.length = 0
  · left
    simp [PivotCalibrator.call, h]
  · right
    simp [PivotCalibrator.call, h]

theorem call_atomic_witness :
    (((PivotCalibrator.init posesW).call pinvZero).1 = PivotCalibrator.init posesW ∧
        ((PivotCalibrator.init posesW).call pinvZero).2 = none) ∨
      ∃ f b, ((PivotCalibrator.init posesW).call pinvZero).2 = some (f, b) ∧
        ((PivotCalibrator.init posesW).call pinvZero).1.ft = some f ∧
        ((PivotCalibrator.init posesW).call pinvZero).1.bt = some b :=
  call_atomic pinvZero (PivotCalibrator.init posesW)

/-- C8: neither construction nor the call changes the stored input: the
constructor stores the caller's pose sequence as given, and the state
after a call differs from the state before at most in the cached
`ft` / `bt` fields — the pose list and the pair list are unchanged. -/
theorem no_input_mutation (pinv : PinvFun) (bfs : List Transform)
    (pc : PivotCalibrator) :
    (PivotCalibrator.init bfs).bfs = bfs ∧
      (pc.call pinv).1.bfs = pc.bfs ∧ (pc.call pinv).1.combs = pc.combs :=
  ⟨rfl, call_fst_bfs pinv pc, call_fst_combs pinv pc⟩

theorem no_input_mutation_witness :
    (PivotCalibrator.init posesW).bfs = posesW ∧
      ((PivotCalibrator.init posesW).call pinvZero).1.bfs =
          (PivotCalibrator.init posesW).bfs ∧
        ((PivotCalibrator.init posesW).call pinvZero).1.combs =
          (PivotCalibrator.init posesW).combs :=
  no_input_mutation pinvZero posesW (PivotCalibrator.init posesW)

/-- C9: the call is deterministic: two instances holding identical inputs
return identical results (whatever their cached fields hold), and invoking
the same instance twice returns the same result both times. -/
theorem calibrate_deterministic (pinv : PinvFun) (s t : PivotCalibrator)
    (hb : s.bfs = t.bfs) (hc : s.combs = t.combs) :
    (s.call pinv).2 = (t.call pinv).2 ∧
      (((s.call pinv).1).call pinv).2 = (s.call pinv).2 :=
  ⟨call_snd_congr pinv s t hb hc,
    call_snd_congr pinv (s.call pinv).1 s (call_fst_bfs pinv s) (call_fst_combs pinv s)⟩

theorem calibrate_deterministic_witness :
    (PivotCalibrator.init posesW).bfs = (PivotCalibrator.init posesW).bfs ∧
      (((PivotCalibrator.init posesW).call pinvZero).2 =
          ((PivotCalibrator.init posesW).call pinvZero).2 ∧
        ((((PivotCalibrator.init posesW).call pinvZero).1).call pinvZero).2 =
          ((PivotCalibrator.init posesW).call pinvZero).2) :=
  ⟨rfl, calibrate_deterministic pinvZero (PivotCalibrator.init posesW)
    (PivotCalibrator.init posesW) rfl rfl⟩

/-- C10: construction never fails for any pose count — the constructor
eagerly enumerates the pair list (empty when fewer than two poses were
given) with no validation — and the insufficient-data failure surfaces
only when the instance is invoked. -/
theorem init_no_validation (bfs : List Transform) (pinv : PinvFun) :
    (PivotCalibrator.init bfs).combs = combinations2 bfs ∧
      (bfs.length ≤ 1 →
        (PivotCalibrator.init bfs).combs = [] ∧
          ((PivotCalibrator.init bfs).call pinv).2 = none) := by
  refine ⟨rfl, fun h1 => ?_⟩
  have h : (combinations2 bfs).length = 0 :=
    (combinations2_length_eq_zero_iff bfs).2 (by omega)
  have hnil : combinations2 bfs = [] := List.length_eq_zero.1 h
  exact ⟨hnil, by simp [PivotCalibrator.call, PivotCalibrator.init, h]⟩

theorem init_no_validation_witness :
    ([] : List Transform).length ≤ 1 ∧
      (PivotCalibrator.init ([] : List Transform)).combs = [] ∧
      ((PivotCalibrator.init ([] : List Transform)).call pinvZero).2 = none :=
  ⟨by decide, (init_no_validation [] pinvZero).2 (by decide)⟩

end PivotCalibration

